import Mathlib

/-!
Verification of the engram `@engram/semantic-memory` hybrid retrieval core.

Shallow embedding of the source files:
- `packages/semantic-memory/src/search/rrf.js` (`reciprocalRankFusion`, `weightedRRF`)
- `packages/semantic-memory/src/search/hybrid.ts` (`hybridSearch`)
- `packages/semantic-memory/src/core/memory-store.ts` (`MemoryStore`)
- `packages/semantic-memory/src/storage/sqlite/index.js` (`SQLiteBackend`)

Numbers are modelled by `ℚ` (scores, weights, embedding components) except for
`cosineSimilarity`, which uses `Math.sqrt` and is modelled over `ℝ`.
JavaScript's stable `Array.prototype.sort` is modelled by `List.mergeSort`,
and the insertion-ordered JavaScript `Map` by an association list.
-/

namespace Engram

/-- Model of the opaque JSON-like `MemoryMetadata` map (`types.ts`).
The core never inspects it; JSON serialization at the storage edge
round-trips (spec §6: "round-trips byte-for-byte"), so the blob column is
modelled by the value itself. -/
def Metadata := List (String × String)

instance : DecidableEq Metadata := by
  unfold Metadata
  infer_instance

/-- `Memory` record (`types.ts`): id, content, optional embedding, optional
metadata, `createdAt`, optional `updatedAt`. -/
structure Memory where
  id : String
  content : String
  embedding : Option (List ℚ)
  metadata : Option Metadata
  createdAt : Int
  updatedAt : Option Int
deriving DecidableEq

/-- The TypeScript intersection type `Memory & { score: number }` returned by
`StorageBackend.searchBM25` / `searchVector`. -/
structure ScoredMemory where
  mem : Memory
  score : ℚ
deriving DecidableEq

/-- `SearchResult.matchType` (`types.ts`). -/
inductive MatchType where
  | bm25
  | vector
  | hybrid
deriving DecidableEq

/-- `SearchResult` (`types.ts`). -/
structure SearchResult where
  memory : Memory
  score : ℚ
  matchType : MatchType
deriving DecidableEq

/-- `RankedItem<T>` (`types.ts`): produced by RRF fusion. -/
structure RankedItem (T : Type) where
  item : T
  score : ℚ
deriving DecidableEq

/-- `WeightedRanking<T>` (`types.ts`). -/
structure WeightedRanking (T : Type) where
  ranking : List T
  weight : ℚ

/-! ### Rank fusion (`search/rrf.js`)

Both fusion functions run a double loop
`for ranking in rankings: for rank in 0..ranking.length` that feeds one
occurrence `(item, contribution)` at a time into an insertion-ordered
`Map` keyed by `getId item`.  We model the `Map` as an association list
(`bumpScore` updates the first hit in place, otherwise appends — exactly
JavaScript `Map.set` semantics) and the double loop as a fold over the
flattened occurrence list, which visits occurrences in the same order. -/

/-- One `scores.get(id)` / `scores.set(id, …)` round of the loop body in
`rrf.js`: if the id is present add the contribution to its score, keeping the
originally stored item; otherwise insert `{item, score: c}` at the end. -/
def bumpScore {T : Type} (acc : List (String × RankedItem T)) (id : String)
    (item : T) (c : ℚ) : List (String × RankedItem T) :=
  match acc with
  | [] => [(id, ⟨item, c⟩)]
  | (i, r) :: rest =>
      if i = id then (i, ⟨r.item, r.score + c⟩) :: rest
      else (i, r) :: bumpScore rest id item c

/-- The accumulation loop of `rrf.js` over a flattened list of
`(item, contribution)` occurrences. -/
def rrfAccum {T : Type} (getId : T → String) (occs : List (T × ℚ)) :
    List (String × RankedItem T) :=
  occs.foldl (fun acc o => bumpScore acc (getId o.1) o.1 o.2) []

/-- The occurrence list of `reciprocalRankFusion`: item at 0-based rank `r`
of any ranking contributes `1 / (k + r + 1)`. -/
def rrfOccurrences {T : Type} (rankings : List (List T)) (k : ℚ) :
    List (T × ℚ) :=
  (rankings.map (fun ranking =>
    ranking.enum.map (fun o => (o.2, 1 / (k + o.1 + 1))))).flatten

/-- The occurrence list of `weightedRRF`: item at 0-based rank `r` of a
ranking with weight `w` contributes `w / (k + r + 1)`. -/
def weightedOccurrences {T : Type} (rankings : List (WeightedRanking T))
    (k : ℚ) : List (T × ℚ) :=
  (rankings.map (fun wr =>
    wr.ranking.enum.map (fun o => (o.2, wr.weight / (k + o.1 + 1))))).flatten

/-- Descending-score comparator: JavaScript `(a, b) => b.score - a.score`. -/
def byScoreDesc {T : Type} (a b : RankedItem T) : Bool :=
  decide (b.score ≤ a.score)

/-- `reciprocalRankFusion` (`rrf.js`): accumulate `1/(k + rank + 1)` per
occurrence into the id-keyed map, then sort the values by score descending.
`k` is the `RRFConfig` smoothing constant (default 60). -/
def reciprocalRankFusion {T : Type} (rankings : List (List T))
    (getId : T → String) (k : ℚ) : List (RankedItem T) :=
  ((rrfAccum getId (rrfOccurrences rankings k)).map Prod.snd).mergeSort byScoreDesc

/-- `weightedRRF` (`rrf.js`): same loop with contribution
`weight/(k + rank + 1)`. -/
def weightedRRF {T : Type} (rankings : List (WeightedRanking T))
    (getId : T → String) (k : ℚ) : List (RankedItem T) :=
  ((rrfAccum getId (weightedOccurrences rankings k)).map Prod.snd).mergeSort byScoreDesc

/-! ### Storage backend and embedding provider interfaces (`types.ts`) -/

/-- `EmbeddingProvider` (`types.ts`): `embed` is `async` in the source; its
resolved value is modelled as a pure function of the text. -/
structure Provider where
  embed : String → List ℚ
  dimension : Nat

/-- `StorageBackend` (`types.ts`), restricted to the two search methods the
hybrid orchestrator dispatches on; `searchVector` is an optional method. -/
structure Backend where
  searchBM25 : String → Nat → List ScoredMemory
  searchVector : Option (List ℚ → Nat → List ScoredMemory)

/-- `HybridSearchOptions` (`search/hybrid.ts`). -/
structure HybridSearchOptions where
  limit : Option Nat
  bm25Weight : Option ℚ
  vectorWeight : Option ℚ
  minScore : Option ℚ

/-! ### Hybrid search orchestrator (`search/hybrid.ts`) -/

/-- `hybridSearch` (`search/hybrid.ts`): fetch BM25 at `limit * 2`; fetch the
vector ranking only when a provider and the optional backend method are both
present; then one of three branches, each doing
`.slice(0, limit).filter(r => r.score >= minScore).map(…)`. -/
def hybridSearch (query : String) (backend : Backend)
    (embeddingProvider : Option Provider) (options : HybridSearchOptions) :
    List SearchResult :=
  let limit := options.limit.getD 10
  let bm25Weight := options.bm25Weight.getD 1
  let vectorWeight := options.vectorWeight.getD 1
  let minScore := options.minScore.getD 0
  let bm25Results := backend.searchBM25 query (limit * 2)
  let vectorResults : List ScoredMemory :=
    match embeddingProvider, backend.searchVector with
    | some p, some sv => sv (p.embed query) (limit * 2)
    | _, _ => []
  if vectorResults.length = 0 then
    ((bm25Results.take limit).filter (fun r => decide (minScore ≤ r.score))).map
      (fun r => ⟨r.mem, r.score, MatchType.bm25⟩)
  else if bm25Results.length = 0 then
    ((vectorResults.take limit).filter (fun r => decide (minScore ≤ r.score))).map
      (fun r => ⟨r.mem, r.score, MatchType.vector⟩)
  else
    let fused := weightedRRF
      [⟨bm25Results, bm25Weight⟩, ⟨vectorResults, vectorWeight⟩]
      (fun m => m.mem.id) 60
    ((fused.take limit).filter (fun r => decide (minScore ≤ r.score))).map
      (fun r => ⟨r.item.mem, r.score, MatchType.hybrid⟩)

/-- The spec's description of the orchestrator branches (§4.6 / claim C1):
identical to `hybridSearch` except that each branch applies the `minScore`
filter BEFORE truncating to `limit`.  Used only to compare against the code's
slice-then-filter order. -/
def hybridSearchSpecOrder (query : String) (backend : Backend)
    (embeddingProvider : Option Provider) (options : HybridSearchOptions) :
    List SearchResult :=
  let limit := options.limit.getD 10
  let bm25Weight := options.bm25Weight.getD 1
  let vectorWeight := options.vectorWeight.getD 1
  let minScore := options.minScore.getD 0
  let bm25Results := backend.searchBM25 query (limit * 2)
  let vectorResults : List ScoredMemory :=
    match embeddingProvider, backend.searchVector with
    | some p, some sv => sv (p.embed query) (limit * 2)
    | _, _ => []
  if vectorResults.length = 0 then
    ((bm25Results.filter (fun r => decide (minScore ≤ r.score))).take limit).map
      (fun r => ⟨r.mem, r.score, MatchType.bm25⟩)
  else if bm25Results.length = 0 then
    ((vectorResults.filter (fun r => decide (minScore ≤ r.score))).take limit).map
      (fun r => ⟨r.mem, r.score, MatchType.vector⟩)
  else
    let fused := weightedRRF
      [⟨bm25Results, bm25Weight⟩, ⟨vectorResults, vectorWeight⟩]
      (fun m => m.mem.id) 60
    ((fused.filter (fun r => decide (minScore ≤ r.score))).take limit).map
      (fun r => ⟨r.item.mem, r.score, MatchType.hybrid⟩)

/-! ### SQLite storage backend (`storage/sqlite/index.js`)

The `memories` table is modelled as a list of rows.  JSON metadata and
`Float32Array` embedding blobs round-trip through the storage edge
(`serializeEmbedding`/`deserializeEmbedding`, `JSON.stringify`/`JSON.parse`),
so the columns are modelled by the deserialized values.  The FTS5 engine
(`memories_fts` with its `bm25()` rank function) is external to the
repository; it is modelled as a match function from the query to the list of
matching rows, each carrying its raw engine score. -/

/-- A row of the `memories` table. -/
structure DbRow where
  id : String
  content : String
  embedding : Option (List ℚ)
  metadata : Option Metadata
  created_at : Int
  updated_at : Option Int
deriving DecidableEq

namespace SQLiteBackend

/-- `rowToMemory` (`storage/sqlite/index.js`). -/
def rowToMemory (row : DbRow) : Memory :=
  ⟨row.id, row.content, row.embedding, row.metadata, row.created_at,
    row.updated_at⟩

/-- `SQLiteBackend.add`: `INSERT OR REPLACE INTO memories …` — any existing
row with the same id is replaced by the new row built entirely from the
argument `memory` (including its `createdAt`, and `updatedAt ?? null`). -/
def add (db : List DbRow) (memory : Memory) : List DbRow :=
  (db.filter (fun r => !(r.id == memory.id))) ++
    [⟨memory.id, memory.content, memory.embedding, memory.metadata,
      memory.createdAt, memory.updatedAt⟩]

/-- `SQLiteBackend.get`: `SELECT * FROM memories WHERE id = ?`, then
`rowToMemory` (or `null` when no row matches). -/
def get (db : List DbRow) (id : String) : Option Memory :=
  (db.find? (fun r => r.id == id)).map rowToMemory

/-- A row matched by `memories_fts MATCH ?`, with the raw
`bm25(memories_fts)` score produced by the engine. -/
structure EngineRow where
  row : DbRow
  rawScore : ℚ

/-- Ascending raw-score comparator of the SQL `ORDER BY score`. -/
def byRawAsc (a b : EngineRow) : Bool :=
  decide (a.rawScore ≤ b.rawScore)

/-- `SQLiteBackend.searchBM25`: the FTS matches (given by `matchRows`) are
ordered by raw score ascending (`ORDER BY score`), truncated (`LIMIT ?`), and
exposed as `{ ...rowToMemory(r), score: -r.score }` — the raw engine score is
negated at the edge. -/
def searchBM25 (matchRows : String → List EngineRow) (query : String)
    (limit : Nat) : List ScoredMemory :=
  (((matchRows query).mergeSort byRawAsc).take limit).map
    (fun r => ⟨rowToMemory r.row, -r.rawScore⟩)

end SQLiteBackend

/-! ### MemoryStore facade (`core/memory-store.ts`) -/

/-- `AddOptions` (`core/memory-store.ts`). -/
structure AddOptions where
  id : Option String
  embed : Option Bool

/-- The state of a `MemoryStore`: its SQLite-backed row table, the optional
vector-search capability of the backend interface, and the optional
embedding provider. -/
structure StoreState where
  db : List DbRow
  backendSearchVector : Option (List ℚ → Nat → List ScoredMemory)
  embeddingProvider : Option Provider

namespace MemoryStore

/-- `MemoryStore.add` (`core/memory-store.ts`): choose
`id = options.id ?? crypto.randomUUID()` (the generated UUID is the
parameter `genId`) and `embed = options.embed ?? !!provider`; compute the
embedding when requested and a provider exists; build the memory with
`createdAt: Date.now()` (the parameter `now`) and no `updatedAt`; hand it to
`backend.add`.  Returns the memory together with the new store state. -/
def add (st : StoreState) (content : String) (metadata : Option Metadata)
    (options : AddOptions) (genId : String) (now : Int) :
    Memory × StoreState :=
  let id := options.id.getD genId
  let embed := options.embed.getD st.embeddingProvider.isSome
  let embedding : Option (List ℚ) :=
    match embed, st.embeddingProvider with
    | true, some p => some (p.embed content)
    | _, _ => none
  let memory : Memory := ⟨id, content, embedding, metadata, now, none⟩
  (memory, { st with db := SQLiteBackend.add st.db memory })

/-- `MemoryStore.get`: delegates to the backend. -/
def get (st : StoreState) (id : String) : Option Memory :=
  SQLiteBackend.get st.db id

/-- The `Backend` interface view of the store's SQLite backend, as passed to
`hybridSearch` by `MemoryStore.search`. -/
def backendOf (matchRows : String → List SQLiteBackend.EngineRow)
    (st : StoreState) : Backend :=
  ⟨SQLiteBackend.searchBM25 matchRows, st.backendSearchVector⟩

/-- `MemoryStore.search`: `hybridSearch(query, this.backend,
this.embeddingProvider, options)`. -/
def search (matchRows : String → List SQLiteBackend.EngineRow)
    (st : StoreState) (query : String) (options : HybridSearchOptions) :
    List SearchResult :=
  hybridSearch query (backendOf matchRows st) st.embeddingProvider options

/-- `MemoryStore.searchBM25`: backend BM25 results wrapped as
`SearchResult`s with `matchType: 'bm25'` — no filtering, no re-truncation. -/
def searchBM25 (matchRows : String → List SQLiteBackend.EngineRow)
    (_st : StoreState) (query : String) (limit : Nat) : List SearchResult :=
  (SQLiteBackend.searchBM25 matchRows query limit).map
    (fun r => ⟨r.mem, r.score, MatchType.bm25⟩)

/-- Outcome of a call to async `MemoryStore.searchVector`: the promise either
rejects with a thrown `Error` (carrying only its message string) or resolves
with a result list. -/
inductive SVOutcome where
  | thrown (msg : String)
  | results (rs : List SearchResult)
deriving DecidableEq

/-- `MemoryStore.searchVector`: `if (!this.embeddingProvider ||
!this.backend.searchVector) throw new Error('Vector search requires an
embedding provider')`; otherwise embed the query and wrap the backend results
with `matchType: 'vector'`. -/
def searchVector (st : StoreState) (query : String) (limit : Nat) :
    SVOutcome :=
  match st.embeddingProvider, st.backendSearchVector with
  | some p, some sv =>
      SVOutcome.results ((sv (p.embed query) limit).map
        (fun r => ⟨r.mem, r.score, MatchType.vector⟩))
  | _, _ => SVOutcome.thrown "Vector search requires an embedding provider"

end MemoryStore

/-! ### Cosine similarity (`storage/sqlite/index.js`)

`cosineSimilarity` uses `Math.sqrt` and real division, so it is modelled over
`ℝ`.  The `for` loop accumulates `dotProduct`, `normA`, `normB` over the
indices `0 ≤ i < a.length`; with the dimension guard already passed the index
range covers exactly `a.zip b`, and the three running sums are the list sums
below. -/

namespace SQLiteBackend

/-- `SQLiteBackend.cosineSimilarity`: return 0 on dimension mismatch;
otherwise `dotProduct / (Math.sqrt(normA) * Math.sqrt(normB))`, guarded to 0
when the magnitude is 0. -/
noncomputable def cosineSimilarity (a b : List ℝ) : ℝ :=
  if a.length = b.length then
    let dotProduct := ((a.zip b).map (fun p => p.1 * p.2)).sum
    let normA := (a.map (fun x => x * x)).sum
    let normB := (b.map (fun x => x * x)).sum
    let magnitude := Real.sqrt normA * Real.sqrt normB
    if magnitude = 0 then 0 else dotProduct / magnitude
  else 0

end SQLiteBackend

/-! ## Helper lemmas -/

/-- For a list along which the predicate `p` can only switch from true to
false (e.g. a score-descending list with a lower-bound predicate), truncating
first and filtering second agrees with filtering first and truncating
second. -/
theorem take_filter_comm {α : Type} (p : α → Bool) :
    ∀ (l : List α), l.Pairwise (fun a b => p b = true → p a = true) →
      ∀ n : Nat, (l.take n).filter p = (l.filter p).take n
  | [], _, n => by simp
  | x :: xs, h, n => by
    rcases List.pairwise_cons.mp h with ⟨hx, hxs⟩
    cases n with
    | zero => simp
    | succ n =>
      by_cases hp : p x = true
      · simp [hp, take_filter_comm p xs hxs n]
      · have hall : ∀ y ∈ xs, ¬ p y = true := fun y hy hpy => hp (hx y hy hpy)
        have h1 : (xs.take n).filter p = [] := by
          rw [List.filter_eq_nil_iff]
          exact fun y hy => hall y (List.mem_of_mem_take hy)
        have h2 : xs.filter p = [] := List.filter_eq_nil_iff.mpr hall
        simp [hp, h1, h2]

/-- The output of `weightedRRF` is sorted by score, highest first (the final
`.sort((a, b) => b.score - a.score)`). -/
theorem weightedRRF_sorted {T : Type} (rankings : List (WeightedRanking T))
    (getId : T → String) (k : ℚ) :
    (weightedRRF rankings getId k).Pairwise
      (fun a b => b.score ≤ a.score) := by
  have h : (((rrfAccum getId (weightedOccurrences rankings k)).map
      Prod.snd).mergeSort byScoreDesc).Pairwise
      (fun a b => byScoreDesc a b = true) := List.sorted_mergeSort
    (fun a b c hab hbc => by
      simp only [byScoreDesc, decide_eq_true_eq] at *
      exact le_trans hbc hab)
    (fun a b => by
      simp only [byScoreDesc, Bool.or_eq_true, decide_eq_true_eq]
      exact le_total b.score a.score)
    ((rrfAccum getId (weightedOccurrences rankings k)).map Prod.snd)
  exact h.imp (fun hab => by
    simpa only [byScoreDesc, decide_eq_true_eq] using hab)

/-- Score-descending sortedness turns the `minScore` bound into a
prefix-closed predicate. -/
theorem pairwise_minScore_of_sorted {α : Type} (score : α → ℚ) (m : ℚ)
    {l : List α} (h : l.Pairwise (fun a b => score b ≤ score a)) :
    l.Pairwise (fun a b =>
      decide (m ≤ score b) = true → decide (m ≤ score a) = true) :=
  h.imp (fun hab => by
    simp only [decide_eq_true_eq]
    exact fun hm => le_trans hm hab)

/-! ## C1 — minScore floor and truncation commute in every branch -/

/-- C1: in `hybridSearch`, every branch slices to `limit` and then applies
the `minScore` floor; because each branch's ranking is sorted by score
descending (the backend contracts for BM25 and vector search, and
`weightedRRF`'s final sort for the fused branch), this equals the spec's
order of operations — filter by `score ≥ minScore` first, then cut to the
first `limit` entries.  No result passing the floor is dropped by
truncation ordering. -/
theorem hybridSearch_minScore_floor_before_truncation
    (query : String) (backend : Backend) (embeddingProvider : Option Provider)
    (options : HybridSearchOptions)
    (hbm : ∀ q n, (backend.searchBM25 q n).Pairwise
      (fun a b => b.score ≤ a.score))
    (hvec : ∀ sv, backend.searchVector = some sv →
      ∀ e n, (sv e n).Pairwise (fun a b => b.score ≤ a.score)) :
    hybridSearch query backend embeddingProvider options =
      hybridSearchSpecOrder query backend embeddingProvider options := by
  unfold hybridSearch hybridSearchSpecOrder
  have hfused : ∀ (rankings : List (WeightedRanking ScoredMemory)) m n,
      ((weightedRRF rankings (fun x => x.mem.id) 60).take n).filter
          (fun r => decide (m ≤ r.score)) =
        ((weightedRRF rankings (fun x => x.mem.id) 60).filter
          (fun r => decide (m ≤ r.score))).take n := by
    intro rankings m n
    exact take_filter_comm _ _
      (pairwise_minScore_of_sorted _ m (weightedRRF_sorted rankings _ 60)) n
  have hbm25 : ∀ q n m j, (((backend.searchBM25 q n).take j).filter
        (fun r => decide (m ≤ r.score))) =
      (((backend.searchBM25 q n).filter
        (fun r => decide (m ≤ r.score))).take j) := by
    intro q n m j
    exact take_filter_comm _ _ (pairwise_minScore_of_sorted _ m (hbm q n)) j
  cases hp : embeddingProvider with
  | none =>
    simp only
    split
    · rw [hbm25]
    · split
      · simp
      · rw [hfused]
  | some p =>
    cases hsv : backend.searchVector with
    | none =>
      simp only
      split
      · rw [hbm25]
      · split
        · simp
        · rw [hfused]
    | some sv =>
      have hvres : ∀ e n, ((sv e n).take n).filter
            (fun r => decide ((options.minScore.getD 0) ≤ r.score)) =
          ((sv e n).filter
            (fun r => decide ((options.minScore.getD 0) ≤ r.score))).take n :=
        fun e n => take_filter_comm _ _
          (pairwise_minScore_of_sorted _ _ (hvec sv hsv e n)) n
      simp only
      split
      · rw [hbm25]
      · split
        · rw [take_filter_comm _ _
            (pairwise_minScore_of_sorted _ _ (hvec sv hsv _ _))]
        · rw [hfused]

/-- Concrete memories for witnesses. -/
def memA : Memory := ⟨"a", "alpha content", none, none, 0, none⟩

/-- Concrete memories for witnesses. -/
def memB : Memory := ⟨"b", "beta content", none, none, 0, none⟩

/-- A concrete backend whose BM25 ranking is sorted descending and which has
no vector capability. -/
def demoBackend : Backend :=
  ⟨fun _ _ => [⟨memA, 2⟩, ⟨memB, 1⟩], none⟩

/-- Witness for C1 at a concrete query, backend, and options. -/
theorem hybridSearch_minScore_floor_before_truncation_witness :
    hybridSearch "q" demoBackend none ⟨some 1, none, none, none⟩ =
      hybridSearchSpecOrder "q" demoBackend none ⟨some 1, none, none, none⟩ :=
  hybridSearch_minScore_floor_before_truncation "q" demoBackend none
    ⟨some 1, none, none, none⟩
    (fun q n => by simp only [demoBackend]; decide)
    (fun sv h => by simp only [demoBackend] at h; cases h)

/-! ## C2 — hybrid search without a provider equals BM25-only search -/

/-- Every score exposed by `SQLiteBackend.searchBM25` is the negation of a
raw engine score of a matching row. -/
theorem searchBM25_score_nonneg
    (matchRows : String → List SQLiteBackend.EngineRow) (query : String)
    (hraw : ∀ row ∈ matchRows query, row.rawScore ≤ 0) (n : Nat) :
    ∀ r ∈ SQLiteBackend.searchBM25 matchRows query n, (0 : ℚ) ≤ r.score := by
  intro r hr
  unfold SQLiteBackend.searchBM25 at hr
  rcases List.mem_map.mp hr with ⟨row, hrow, hre⟩
  have hmem : row ∈ matchRows query :=
    List.mem_mergeSort.mp (List.mem_of_mem_take hrow)
  have h0 := hraw row hmem
  rw [← hre]
  simpa using h0

/-- Truncating the oversampled BM25 fetch back to `limit` yields exactly the
`limit`-sized fetch: both are prefixes of the same deterministic ordering. -/
theorem searchBM25_take_oversample
    (matchRows : String → List SQLiteBackend.EngineRow) (query : String)
    (limit : Nat) :
    (SQLiteBackend.searchBM25 matchRows query (limit * 2)).take limit =
      SQLiteBackend.searchBM25 matchRows query limit := by
  unfold SQLiteBackend.searchBM25
  rw [← List.map_take, List.take_take, Nat.min_eq_left (by omega)]

/-- C2: with no embedding provider configured, `search(query, {limit})`
returns exactly the same list as `searchBM25(query, limit)` (same memories,
same scores, same order), and every result carries `matchType = "bm25"`.
The hypothesis `hraw` is the FTS5 engine convention that raw `bm25()` rank
scores are non-positive ("lower is better"). -/
theorem search_without_provider_eq_searchBM25
    (matchRows : String → List SQLiteBackend.EngineRow) (db : List DbRow)
    (bsv : Option (List ℚ → Nat → List ScoredMemory)) (query : String)
    (limit : Nat)
    (hraw : ∀ row ∈ matchRows query, row.rawScore ≤ 0) :
    MemoryStore.search matchRows ⟨db, bsv, none⟩ query
        ⟨some limit, none, none, none⟩ =
      MemoryStore.searchBM25 matchRows ⟨db, bsv, none⟩ query limit ∧
    ∀ r ∈ MemoryStore.search matchRows ⟨db, bsv, none⟩ query
        ⟨some limit, none, none, none⟩, r.matchType = MatchType.bm25 := by
  have hfilter :
      (SQLiteBackend.searchBM25 matchRows query limit).filter
          (fun r => decide ((0 : ℚ) ≤ r.score)) =
        SQLiteBackend.searchBM25 matchRows query limit :=
    List.filter_eq_self.mpr (fun r hr =>
      decide_eq_true (searchBM25_score_nonneg matchRows query hraw limit r hr))
  have hmain : MemoryStore.search matchRows ⟨db, bsv, none⟩ query
      ⟨some limit, none, none, none⟩ =
      MemoryStore.searchBM25 matchRows ⟨db, bsv, none⟩ query limit := by
    unfold MemoryStore.search MemoryStore.backendOf hybridSearch
      MemoryStore.searchBM25
    simp only [Option.getD_some, Option.getD_none, List.length_nil, if_true]
    rw [searchBM25_take_oversample, hfilter]
  refine ⟨hmain, fun r hr => ?_⟩
  rw [hmain] at hr
  unfold MemoryStore.searchBM25 at hr
  rcases List.mem_map.mp hr with ⟨s, _, hse⟩
  rw [← hse]

/-- A concrete FTS match function whose raw scores follow the engine's
non-positive convention. -/
def demoMatchRows : String → List SQLiteBackend.EngineRow :=
  fun _ => [⟨⟨"a", "alpha content", none, none, 0, none⟩, -2⟩,
            ⟨⟨"b", "beta content", none, none, 0, none⟩, -1⟩]

/-- Witness for C2 at a concrete store, query, and limit. -/
theorem search_without_provider_eq_searchBM25_witness :
    MemoryStore.search demoMatchRows ⟨[], none, none⟩ "q"
        ⟨some 3, none, none, none⟩ =
      MemoryStore.searchBM25 demoMatchRows ⟨[], none, none⟩ "q" 3 ∧
    ∀ r ∈ MemoryStore.search demoMatchRows ⟨[], none, none⟩ "q"
        ⟨some 3, none, none, none⟩, r.matchType = MatchType.bm25 :=
  search_without_provider_eq_searchBM25 demoMatchRows [] none "q" 3
    (by decide)

/-! ## C3 — replace-on-conflict semantics of `add` -/

/-- No row surviving the replace step still carries the replaced id. -/
theorem find?_filter_ne_id (db : List DbRow) (id : String) :
    (db.filter (fun r => !(r.id == id))).find? (fun r => r.id == id) =
      none := by
  rw [List.find?_eq_none]
  intro x hx
  have hmem := List.of_mem_filter hx
  simp only [Bool.not_eq_true'] at hmem
  simp [hmem]

/-- `get` after `SQLiteBackend.add` returns exactly the row built from the
added memory. -/
theorem get_after_backend_add (db : List DbRow) (memory : Memory) :
    SQLiteBackend.get (SQLiteBackend.add db memory) memory.id =
      some ⟨memory.id, memory.content, memory.embedding, memory.metadata,
        memory.createdAt, memory.updatedAt⟩ := by
  unfold SQLiteBackend.get SQLiteBackend.add
  rw [List.find?_append, find?_filter_ne_id]
  simp [SQLiteBackend.rowToMemory]

/-- C3 counterexample: add id "a" at time 100, then add the same id again at
time 200.  The stored record afterwards has `createdAt = 200` — the
`createdAt` from the first creation (100) is NOT preserved — and
`updatedAt` is still unset (`none`) — no new `updatedAt` is written.  This
refutes the claim that replacement keeps `createdAt` and stamps a fresh
`updatedAt`. -/
theorem add_replace_counterexample :
    (MemoryStore.get
        (MemoryStore.add
          (MemoryStore.add ⟨[], none, none⟩ "first" none ⟨some "a", none⟩
            "g1" 100).2
          "second" none ⟨some "a", none⟩ "g2" 200).2 "a" =
      some ⟨"a", "second", none, none, 200, none⟩) ∧
    ¬ ((MemoryStore.get
        (MemoryStore.add
          (MemoryStore.add ⟨[], none, none⟩ "first" none ⟨some "a", none⟩
            "g1" 100).2
          "second" none ⟨some "a", none⟩ "g2" 200).2 "a").map
            Memory.createdAt = some 100 ∧
      (MemoryStore.get
        (MemoryStore.add
          (MemoryStore.add ⟨[], none, none⟩ "first" none ⟨some "a", none⟩
            "g1" 100).2
          "second" none ⟨some "a", none⟩ "g2" 200).2 "a").map
            Memory.updatedAt ≠ some none) := by
  decide

/-- C3 amended: `add` with an id that already exists replaces the whole
record; the stored record afterwards has `createdAt` equal to the replacing
call's `Date.now()` and `updatedAt` unset (`MemoryStore.add` never sets
`updatedAt`), and carries the new content and metadata. -/
theorem add_replace_overwrites_whole_record
    (st : StoreState) (content : String) (metadata : Option Metadata)
    (options : AddOptions) (genId : String) (now : Int)
    (_hex : ∃ r ∈ st.db, r.id = options.id.getD genId) :
    ∃ m, MemoryStore.get
        (MemoryStore.add st content metadata options genId now).2
        (options.id.getD genId) = some m ∧
      m.content = content ∧ m.metadata = metadata ∧
      m.createdAt = now ∧ m.updatedAt = none := by
  have h := get_after_backend_add st.db
    ⟨options.id.getD genId, content,
      (match options.embed.getD st.embeddingProvider.isSome,
          st.embeddingProvider with
        | true, some p => some (p.embed content)
        | _, _ => none),
      metadata, now, none⟩
  exact ⟨_, h, rfl, rfl, rfl, rfl⟩

/-- Witness for the amended C3 at a concrete pre-populated store. -/
theorem add_replace_overwrites_whole_record_witness :
    (∃ r ∈ ([⟨"a", "old", none, none, 100, none⟩] : List DbRow),
      r.id = (AddOptions.mk (some "a") none).id.getD "g2") ∧
    ∃ m, MemoryStore.get
        (MemoryStore.add ⟨[⟨"a", "old", none, none, 100, none⟩], none, none⟩
          "second" none ⟨some "a", none⟩ "g2" 200).2
        ((AddOptions.mk (some "a") none).id.getD "g2") = some m ∧
      m.content = "second" ∧ m.metadata = none ∧
      m.createdAt = 200 ∧ m.updatedAt = none :=
  ⟨by decide,
    add_replace_overwrites_whole_record
      ⟨[⟨"a", "old", none, none, 100, none⟩], none, none⟩
      "second" none ⟨some "a", none⟩ "g2" 200 (by decide)⟩

/-! ## RRF accumulation: characterizing the id-keyed score map -/

/-- Total contribution accumulated for `id` over an occurrence list: the sum
of the contributions of all occurrences whose item has that id. -/
def accScore {T : Type} (getId : T → String) (occs : List (T × ℚ))
    (id : String) : ℚ :=
  ((occs.filter (fun o => decide (getId o.1 = id))).map Prod.snd).sum

/-- The item of the first occurrence of `id` in traversal order. -/
def accItem {T : Type} (getId : T → String) (occs : List (T × ℚ))
    (id : String) : Option T :=
  (occs.find? (fun o => decide (getId o.1 = id))).map Prod.fst

/-- After `bumpScore … id item c`, the first entry keyed `id` is the old one
with `c` added to its score, or a fresh `⟨item, c⟩` entry. -/
theorem bump_find_self {T : Type} (id : String) (item : T) (c : ℚ) :
    ∀ acc : List (String × RankedItem T),
      (bumpScore acc id item c).find? (fun e => decide (e.1 = id)) =
        some (id,
          match acc.find? (fun e => decide (e.1 = id)) with
          | some e => ⟨e.2.item, e.2.score + c⟩
          | none => ⟨item, c⟩)
  | [] => by simp [bumpScore]
  | (i, r) :: rest => by
    by_cases hi : i = id
    · subst hi
      simp [bumpScore]
    · simp only [bumpScore, if_neg hi]
      rw [List.find?_cons_of_neg _ (by simp [hi]),
        List.find?_cons_of_neg _ (by simp [hi])]
      exact bump_find_self id item c rest

/-- `bumpScore` at another id leaves the first entry keyed `id` unchanged. -/
theorem bump_find_other {T : Type} (id id' : String) (item : T) (c : ℚ)
    (hne : id' ≠ id) :
    ∀ acc : List (String × RankedItem T),
      (bumpScore acc id' item c).find? (fun e => decide (e.1 = id)) =
        acc.find? (fun e => decide (e.1 = id))
  | [] => by simp [bumpScore, hne]
  | (i, r) :: rest => by
    by_cases hi : i = id'
    · subst hi
      have : ¬ i = id := hne
      simp [bumpScore, this]
    · by_cases hid : i = id
      · subst hid
        simp [bumpScore, hi]
      · simp only [bumpScore, if_neg hi]
        rw [List.find?_cons_of_neg _ (by simp [hid]),
          List.find?_cons_of_neg _ (by simp [hid])]
        exact bump_find_other id id' item c hne rest

/-- Fold characterization of the `rrf.js` accumulation loop: after feeding
`occs` into the map the first entry keyed `id` carries the initial entry
(or, failing that, the first occurrence's item) with the total contribution
of `id` in `occs` added to its score. -/
theorem rrfAccum_find_general {T : Type} (getId : T → String) (id : String) :
    ∀ (occs : List (T × ℚ)) (acc : List (String × RankedItem T)),
      (occs.foldl (fun a o => bumpScore a (getId o.1) o.1 o.2) acc).find?
          (fun e => decide (e.1 = id)) =
        match acc.find? (fun e => decide (e.1 = id)) with
        | some e => some (e.1, ⟨e.2.item, e.2.score + accScore getId occs id⟩)
        | none => (accItem getId occs id).map
            (fun it => (id, ⟨it, accScore getId occs id⟩))
  | [], acc => by
    cases h : acc.find? (fun e => decide (e.1 = id)) with
    | none => simp [accItem, accScore, h]
    | some e => simp [accItem, accScore, h]
  | o :: occs, acc => by
    rw [List.foldl_cons, rrfAccum_find_general getId id occs]
    by_cases hid : getId o.1 = id
    · rw [show bumpScore acc (getId o.1) o.1 o.2 = bumpScore acc id o.1 o.2
        from by rw [hid]]
      rw [bump_find_self]
      have hsc : accScore getId (o :: occs) id = o.2 + accScore getId occs id := by
        simp [accScore, List.filter_cons, hid]
      have hit : accItem getId (o :: occs) id = some o.1 := by
        simp [accItem, List.find?_cons_of_pos, hid]
      rw [hsc, hit]
      cases h : acc.find? (fun e => decide (e.1 = id)) with
      | none => simp
      | some e =>
        have he : e.1 = id := by
          have := List.find?_some h
          simpa using this
        simp [he, add_assoc]
    · rw [bump_find_other id (getId o.1) o.1 o.2 hid]
      have hsc : accScore getId (o :: occs) id = accScore getId occs id := by
        simp [accScore, List.filter_cons, hid]
      have hit : accItem getId (o :: occs) id = accItem getId occs id := by
        simp [accItem, List.find?_cons_of_neg, hid]
      rw [hsc, hit]

/-- Every entry of the accumulated map satisfies: its key is the id of its
stored item. -/
theorem bump_mem {T : Type} (id : String) (item : T) (c : ℚ) :
    ∀ (acc : List (String × RankedItem T)) (e : String × RankedItem T),
      e ∈ bumpScore acc id item c →
        (∃ e' ∈ acc, e.1 = e'.1 ∧ e.2.item = e'.2.item) ∨
          (e.1 = id ∧ e.2.item = item)
  | [], e => by
    intro he
    simp only [bumpScore, List.mem_singleton] at he
    subst he
    exact Or.inr ⟨rfl, rfl⟩
  | (i, r) :: rest, e => by
    intro he
    by_cases hi : i = id
    · rw [bumpScore, if_pos hi] at he
      rcases List.mem_cons.mp he with h1 | h1
      · subst h1
        exact Or.inl ⟨(i, r), List.mem_cons_self _ _, rfl, rfl⟩
      · exact Or.inl ⟨e, List.mem_cons_of_mem _ h1, rfl, rfl⟩
    · rw [bumpScore, if_neg hi] at he
      rcases List.mem_cons.mp he with h1 | h1
      · subst h1
        exact Or.inl ⟨(i, r), List.mem_cons_self _ _, rfl, rfl⟩
      · rcases bump_mem id item c rest e h1 with ⟨e', he', hk, hv⟩ | h
        · exact Or.inl ⟨e', List.mem_cons_of_mem _ he', hk, hv⟩
        · exact Or.inr h

/-- Invariant: in the accumulated map, every entry's key is `getId` of its
item. -/
theorem rrfAccum_key_inv {T : Type} (getId : T → String) :
    ∀ (occs : List (T × ℚ)) (acc : List (String × RankedItem T)),
      (∀ e ∈ acc, getId e.2.item = e.1) →
      ∀ e ∈ occs.foldl (fun a o => bumpScore a (getId o.1) o.1 o.2) acc,
        getId e.2.item = e.1
  | [], acc => fun h => h
  | o :: occs, acc => by
    intro h
    rw [List.foldl_cons]
    refine rrfAccum_key_inv getId occs _ ?_
    intro e he
    rcases bump_mem (getId o.1) o.1 o.2 acc e he with ⟨e', he', h1, h2⟩ | ⟨h1, h2⟩
    · rw [h2, h e' he', h1]
    · rw [h2, h1]

/-- The keys of `bumpScore acc id … `: unchanged when `id` is present,
otherwise extended with `id` at the end. -/
theorem bump_keys {T : Type} (id : String) (item : T) (c : ℚ) :
    ∀ acc : List (String × RankedItem T),
      (bumpScore acc id item c).map Prod.fst =
        if id ∈ acc.map Prod.fst then acc.map Prod.fst
        else acc.map Prod.fst ++ [id]
  | [] => by simp [bumpScore]
  | (i, r) :: rest => by
    by_cases hi : i = id
    · subst hi
      simp [bumpScore]
    · have hne : ¬ id = i := fun h => hi h.symm
      simp only [bumpScore, if_neg hi, List.map_cons, List.mem_cons, hne,
        false_or]
      rw [bump_keys id item c rest]
      by_cases hmem : id ∈ rest.map Prod.fst
      · simp [hmem]
      · simp [hmem]

/-- The accumulated map has pairwise-distinct keys. -/
theorem rrfAccum_keys_nodup {T : Type} (getId : T → String) :
    ∀ (occs : List (T × ℚ)) (acc : List (String × RankedItem T)),
      (acc.map Prod.fst).Nodup →
      ((occs.foldl (fun a o => bumpScore a (getId o.1) o.1 o.2) acc).map
        Prod.fst).Nodup
  | [], _ => fun h => h
  | o :: occs, acc => by
    intro h
    rw [List.foldl_cons]
    refine rrfAccum_keys_nodup getId occs _ ?_
    rw [bump_keys]
    by_cases hmem : (getId o.1) ∈ acc.map Prod.fst
    · simpa [hmem] using h
    · rw [if_neg hmem]
      rw [List.nodup_append]
      exact ⟨h, List.nodup_singleton _, by simpa using hmem⟩

/-- In a list with pairwise-distinct keys, filtering by a key returns the
`find?` result (at most one entry). -/
theorem filter_key_eq_find_toList {T : Type} (id : String) :
    ∀ l : List (String × RankedItem T), (l.map Prod.fst).Nodup →
      l.filter (fun e => decide (e.1 = id)) =
        (l.find? (fun e => decide (e.1 = id))).toList := by
  intro l
  induction l with
  | nil => intro h; simp
  | cons x xs ih =>
    intro h
    rw [List.map_cons, List.nodup_cons] at h
    obtain ⟨hx, hxs⟩ := h
    by_cases hid : x.1 = id
    · have hnone : xs.filter (fun e => decide (e.1 = id)) = [] := by
        rw [List.filter_eq_nil_iff]
        intro e he
        simp only [decide_eq_true_eq]
        intro heq
        apply hx
        rw [hid, ← heq]
        exact List.mem_map_of_mem Prod.fst he
      rw [List.find?_cons_of_pos _ (by simp [hid])]
      simp [List.filter_cons, hid, hnone]
    · rw [List.find?_cons_of_neg _ (by simp [hid])]
      rw [List.filter_cons, if_neg (by simp [hid])]
      exact ih hxs

/-- The single output entry of the accumulation for an id that occurs:
first-encountered item, total accumulated score. -/
theorem rrfAccum_values_filter {T : Type} (getId : T → String)
    (occs : List (T × ℚ)) (id : String) (it : T)
    (hit : accItem getId occs id = some it) :
    ((rrfAccum getId occs).map Prod.snd).filter
        (fun r => decide (getId r.item = id)) =
      [⟨it, accScore getId occs id⟩] := by
  have hkeys : ((rrfAccum getId occs).map Prod.fst).Nodup :=
    rrfAccum_keys_nodup getId occs [] (by simp)
  have hinv : ∀ e ∈ rrfAccum getId occs, getId e.2.item = e.1 :=
    rrfAccum_key_inv getId occs [] (by simp)
  have hfind : (rrfAccum getId occs).find? (fun e => decide (e.1 = id)) =
      some (id, ⟨it, accScore getId occs id⟩) := by
    unfold rrfAccum
    rw [rrfAccum_find_general getId id occs []]
    simp [hit]
  rw [List.filter_map]
  have hcongr : (rrfAccum getId occs).filter
      ((fun r => decide (getId r.item = id)) ∘ Prod.snd) =
      (rrfAccum getId occs).filter (fun e => decide (e.1 = id)) := by
    apply List.filter_congr
    intro e he
    simp only [Function.comp]
    rw [hinv e he]
  rw [hcongr, filter_key_eq_find_toList id _ hkeys, hfind]
  rfl

/-! ## C9 — duplicate ids fuse into one entry with summed score -/

/-- C9: in both `reciprocalRankFusion` and `weightedRRF`, an id occurring at
several ranks (within one ranking or across rankings) yields exactly one
output entry: its score is the sum of the contributions
`1/(k + rank + 1)` (resp. `weight/(k + rank + 1)`) over all occurrences, and
its item is the first occurrence's item in traversal order (rankings in
input order, ranks from 0 up). -/
theorem rrf_duplicate_ids_fused
    {T : Type} (rankings : List (List T))
    (wrankings : List (WeightedRanking T)) (getId : T → String) (k : ℚ)
    (id : String) (it it' : T) (_hk : 0 < k)
    (h1 : accItem getId (rrfOccurrences rankings k) id = some it)
    (h2 : accItem getId (weightedOccurrences wrankings k) id = some it') :
    (reciprocalRankFusion rankings getId k).filter
        (fun r => decide (getId r.item = id)) =
      [⟨it, accScore getId (rrfOccurrences rankings k) id⟩] ∧
    (weightedRRF wrankings getId k).filter
        (fun r => decide (getId r.item = id)) =
      [⟨it', accScore getId (weightedOccurrences wrankings k) id⟩] := by
  constructor
  · have hperm : List.Perm
        ((reciprocalRankFusion rankings getId k).filter
          (fun r => decide (getId r.item = id)))
        (((rrfAccum getId (rrfOccurrences rankings k)).map Prod.snd).filter
          (fun r => decide (getId r.item = id))) :=
      List.Perm.filter _ (List.mergeSort_perm _ byScoreDesc)
    rw [rrfAccum_values_filter getId _ id it h1] at hperm
    exact List.perm_singleton.mp hperm
  · have hperm : List.Perm
        ((weightedRRF wrankings getId k).filter
          (fun r => decide (getId r.item = id)))
        (((rrfAccum getId (weightedOccurrences wrankings k)).map Prod.snd).filter
          (fun r => decide (getId r.item = id))) :=
      List.Perm.filter _ (List.mergeSort_perm _ byScoreDesc)
    rw [rrfAccum_values_filter getId _ id it' h2] at hperm
    exact List.perm_singleton.mp hperm

/-- Witness for C9: "b" occurs in both rankings (ranks 1 and 0); in the
weighted case "b" occurs in a zero-weight and in a weight-1 ranking. -/
theorem rrf_duplicate_ids_fused_witness :
    ((0 : ℚ) < 60 ∧
      accItem (fun s => s) (rrfOccurrences [["a", "b"], ["b", "c"]] 60) "b" =
        some "b" ∧
      accItem (fun s => s)
        (weightedOccurrences [⟨["b"], 0⟩, ⟨["b", "c"], 1⟩] 60) "b" =
        some "b") ∧
    (reciprocalRankFusion [["a", "b"], ["b", "c"]] (fun s => s) 60).filter
        (fun r => decide (r.item = "b")) =
      [⟨"b", accScore (fun s => s)
        (rrfOccurrences [["a", "b"], ["b", "c"]] 60) "b"⟩] ∧
    (weightedRRF [⟨["b"], 0⟩, ⟨["b", "c"], 1⟩] (fun s => s) 60).filter
        (fun r => decide (r.item = "b")) =
      [⟨"b", accScore (fun s => s)
        (weightedOccurrences [⟨["b"], 0⟩, ⟨["b", "c"], 1⟩] 60) "b"⟩] :=
  ⟨⟨by norm_num, by decide, by decide⟩,
    rrf_duplicate_ids_fused [["a", "b"], ["b", "c"]]
      [⟨["b"], 0⟩, ⟨["b", "c"], 1⟩] (fun s => s) 60 "b" "b" "b"
      (by norm_num) (by decide) (by decide)⟩

/-! ## C4 — zero-weight rankings are inert in `weightedRRF` -/

/-- `accScore` distributes over appended occurrence lists. -/
theorem accScore_append {T : Type} (getId : T → String)
    (l₁ l₂ : List (T × ℚ)) (id : String) :
    accScore getId (l₁ ++ l₂) id =
      accScore getId l₁ id + accScore getId l₂ id := by
  simp [accScore, List.filter_append]

/-- A zero-weight ranking's occurrence block contributes score 0 for any
id, since each contribution is `0 / (k + rank + 1) = 0`. -/
theorem accScore_zero_weight_block {T : Type} (getId : T → String)
    (wr : WeightedRanking T) (k : ℚ) (id : String) (hw : wr.weight = 0) :
    accScore getId
      (wr.ranking.enum.map (fun o => (o.2, wr.weight / (k + o.1 + 1)))) id =
      0 := by
  apply List.sum_eq_zero
  intro x hx
  rcases List.mem_map.mp hx with ⟨o, ho, rfl⟩
  have hob := List.mem_of_mem_filter ho
  rcases List.mem_map.mp hob with ⟨t, _, rfl⟩
  simp [hw]

/-- Dropping the zero-weight rankings does not change any id's accumulated
score. -/
theorem accScore_filter_zero_weights {T : Type} (getId : T → String)
    (k : ℚ) (id : String) :
    ∀ rankings : List (WeightedRanking T),
      accScore getId (weightedOccurrences rankings k) id =
        accScore getId (weightedOccurrences
          (rankings.filter (fun wr => decide (wr.weight ≠ 0))) k) id
  | [] => rfl
  | wr :: rest => by
    have hco : weightedOccurrences (wr :: rest) k =
        (wr.ranking.enum.map (fun o => (o.2, wr.weight / (k + o.1 + 1)))) ++
          weightedOccurrences rest k := by
      simp [weightedOccurrences]
    by_cases hw : wr.weight = 0
    · rw [hco, accScore_append, accScore_zero_weight_block getId wr k id hw,
        zero_add, List.filter_cons, if_neg (by simp [hw])]
      exact accScore_filter_zero_weights getId k id rest
    · rw [hco, accScore_append, List.filter_cons, if_pos (by simp [hw])]
      have hco' : weightedOccurrences
          (wr :: rest.filter (fun wr => decide (wr.weight ≠ 0))) k =
          (wr.ranking.enum.map (fun o => (o.2, wr.weight / (k + o.1 + 1)))) ++
            weightedOccurrences
              (rest.filter (fun wr => decide (wr.weight ≠ 0))) k := by
        simp [weightedOccurrences]
      rw [hco', accScore_append,
        accScore_filter_zero_weights getId k id rest]

/-- If every ranking containing the id has weight 0, the id's accumulated
score is exactly 0. -/
theorem accScore_all_zero_weights {T : Type} (getId : T → String) (k : ℚ)
    (id : String) (rankings : List (WeightedRanking T))
    (hz : ∀ wr ∈ rankings, (∃ t ∈ wr.ranking, getId t = id) →
      wr.weight = 0) :
    accScore getId (weightedOccurrences rankings k) id = 0 := by
  apply List.sum_eq_zero
  intro x hx
  rcases List.mem_map.mp hx with ⟨o, ho, rfl⟩
  have hof := List.mem_of_mem_filter ho
  have hop := List.of_mem_filter ho
  have hof' : ∃ wr ∈ rankings, ∃ i t, (i, t) ∈ wr.ranking.enum ∧
      (t, wr.weight / (k + i + 1)) = o := by
    simpa [weightedOccurrences] using hof
  obtain ⟨wr, hwr, i, t, ht, ho'⟩ := hof'
  subst ho'
  have hid : getId t = id := by simpa using hop
  have htr : t ∈ wr.ranking := by
    have hg := List.mk_mem_enum_iff_getElem?.mp ht
    exact List.getElem?_mem hg
  have hw : wr.weight = 0 := hz wr hwr ⟨t, htr, hid⟩
  simp [hw]

/-- C4: in `weightedRRF`, a zero-weight ranking contributes nothing: any
occurring id's single output entry scores as if the zero-weight rankings
were absent (sum of `weight/(k + rank + 1)` over its occurrences in the
remaining, non-zero-weight rankings), and an id occurring only in
zero-weight rankings scores exactly 0. -/
theorem weightedRRF_zero_weight_inert
    {T : Type} (rankings : List (WeightedRanking T)) (getId : T → String)
    (k : ℚ) (id : String) (it : T) (_hk : 0 < k)
    (hit : accItem getId (weightedOccurrences rankings k) id = some it) :
    (weightedRRF rankings getId k).filter
        (fun r => decide (getId r.item = id)) =
      [⟨it, accScore getId (weightedOccurrences
        (rankings.filter (fun wr => decide (wr.weight ≠ 0))) k) id⟩] ∧
    ((∀ wr ∈ rankings, (∃ t ∈ wr.ranking, getId t = id) → wr.weight = 0) →
      (weightedRRF rankings getId k).filter
        (fun r => decide (getId r.item = id)) = [⟨it, 0⟩]) := by
  have hbase : (weightedRRF rankings getId k).filter
      (fun r => decide (getId r.item = id)) =
      [⟨it, accScore getId (weightedOccurrences rankings k) id⟩] := by
    have hperm := List.Perm.filter (fun r => decide (getId r.item = id))
      (List.mergeSort_perm
        ((rrfAccum getId (weightedOccurrences rankings k)).map Prod.snd)
        byScoreDesc)
    rw [rrfAccum_values_filter getId _ id it hit] at hperm
    exact List.perm_singleton.mp hperm
  constructor
  · rw [hbase, accScore_filter_zero_weights]
  · intro hz
    rw [hbase, accScore_all_zero_weights getId k id rankings hz]

/-- Witness for C4: "z" occurs only in the zero-weight ranking, "b" in the
weight-1 ranking. -/
theorem weightedRRF_zero_weight_inert_witness :
    ((0 : ℚ) < 60 ∧
      accItem (fun s => s)
        (weightedOccurrences [⟨["z"], 0⟩, ⟨["b"], 1⟩] 60) "z" = some "z" ∧
      (∀ wr ∈ ([⟨["z"], 0⟩, ⟨["b"], 1⟩] : List (WeightedRanking String)),
        (∃ t ∈ wr.ranking, t = "z") → wr.weight = 0)) ∧
    (weightedRRF [⟨["z"], 0⟩, ⟨["b"], 1⟩] (fun s => s) 60).filter
        (fun r => decide (r.item = "z")) =
      [⟨"z", accScore (fun s => s)
        (weightedOccurrences
          (([⟨["z"], 0⟩, ⟨["b"], 1⟩] : List (WeightedRanking String)).filter
            (fun wr => decide (wr.weight ≠ 0))) 60) "z"⟩] ∧
    (weightedRRF [⟨["z"], 0⟩, ⟨["b"], 1⟩] (fun s => s) 60).filter
        (fun r => decide (r.item = "z")) = [⟨"z", 0⟩] :=
  ⟨⟨by norm_num, by decide, by decide⟩,
    (weightedRRF_zero_weight_inert [⟨["z"], 0⟩, ⟨["b"], 1⟩] (fun s => s) 60
      "z" "z" (by norm_num) (by decide)).1,
    (weightedRRF_zero_weight_inert [⟨["z"], 0⟩, ⟨["b"], 1⟩] (fun s => s) 60
      "z" "z" (by norm_num) (by decide)).2 (by decide)⟩

/-! ## C5 — score negation at the edge of the lexical index -/

/-- C5: `SQLiteBackend.searchBM25` returns the engine's ranking with the raw
score negated at the edge: the list is sorted with higher exposed score
(better rank) first, and every result is a matching engine row's memory with
exposed score equal to minus that row's raw engine score. -/
theorem searchBM25_negates_raw_scores
    (matchRows : String → List SQLiteBackend.EngineRow) (query : String)
    (limit : Nat) :
    (SQLiteBackend.searchBM25 matchRows query limit).Pairwise
      (fun a b => b.score ≤ a.score) ∧
    ∀ r ∈ SQLiteBackend.searchBM25 matchRows query limit,
      ∃ row ∈ matchRows query,
        r.mem = SQLiteBackend.rowToMemory row.row ∧
          r.score = -row.rawScore := by
  constructor
  · have hsorted : ((matchRows query).mergeSort
        SQLiteBackend.byRawAsc).Pairwise
        (fun a b => a.rawScore ≤ b.rawScore) := by
      have h : (((matchRows query).mergeSort
          SQLiteBackend.byRawAsc).Pairwise
          (fun a b => SQLiteBackend.byRawAsc a b = true)) := List.sorted_mergeSort
        (fun a b c hab hbc => by
          simp only [SQLiteBackend.byRawAsc, decide_eq_true_eq] at *
          exact le_trans hab hbc)
        (fun a b => by
          simp only [SQLiteBackend.byRawAsc, Bool.or_eq_true,
            decide_eq_true_eq]
          exact le_total a.rawScore b.rawScore)
        (matchRows query)
      exact h.imp (fun hab => by
        simpa only [SQLiteBackend.byRawAsc, decide_eq_true_eq] using hab)
    unfold SQLiteBackend.searchBM25
    rw [List.pairwise_map]
    exact (hsorted.sublist (List.take_sublist limit _)).imp
      (fun hab => neg_le_neg hab)
  · intro r hr
    unfold SQLiteBackend.searchBM25 at hr
    rcases List.mem_map.mp hr with ⟨row, hrow, rfl⟩
    exact ⟨row, List.mem_mergeSort.mp (List.mem_of_mem_take hrow), rfl, rfl⟩

/-! ## C7 — searchVector without a provider throws, not a typed return -/

/-- C7 counterexample: on a store with no embedding provider,
`MemoryStore.searchVector` throws a plain `Error` with the message
"Vector search requires an embedding provider" — an exception, not an
"unsupported" error value encoded in the return per the spec's propagation
policy — and yields no result list. -/
theorem searchVector_throws_counterexample :
    MemoryStore.searchVector ⟨[], none, none⟩ "q" 10 =
      MemoryStore.SVOutcome.thrown
        "Vector search requires an embedding provider" ∧
    ¬ ∃ rs, MemoryStore.searchVector ⟨[], none, none⟩ "q" 10 =
      MemoryStore.SVOutcome.results rs := by
  constructor
  · rfl
  · rintro ⟨rs, h⟩
    simp only [MemoryStore.searchVector] at h
    cases h

/-- C7 amended: whenever no embedding provider is configured or the backend
lacks the optional `searchVector` capability, `MemoryStore.searchVector`
throws a generic `Error` whose message is "Vector search requires an
embedding provider" (a rejected promise, not a typed error value in the
return), and never returns a result list. -/
theorem searchVector_throws_without_provider
    (st : StoreState) (query : String) (limit : Nat)
    (h : st.embeddingProvider = none ∨ st.backendSearchVector = none) :
    MemoryStore.searchVector st query limit =
      MemoryStore.SVOutcome.thrown
        "Vector search requires an embedding provider" := by
  unfold MemoryStore.searchVector
  rcases h with h | h
  · rw [h]
  · rw [h]
    cases st.embeddingProvider <;> rfl

/-- Witness for the amended C7: a store with a provider but a backend
without vector capability. -/
theorem searchVector_throws_without_provider_witness :
    ((⟨[], none, some ⟨fun _ => [], 3⟩⟩ : StoreState).embeddingProvider =
        none ∨
      (⟨[], none, some ⟨fun _ => [], 3⟩⟩ : StoreState).backendSearchVector =
        none) ∧
    MemoryStore.searchVector ⟨[], none, some ⟨fun _ => [], 3⟩⟩ "q" 5 =
      MemoryStore.SVOutcome.thrown
        "Vector search requires an embedding provider" :=
  ⟨Or.inr rfl,
    searchVector_throws_without_provider ⟨[], none, some ⟨fun _ => [], 3⟩⟩
      "q" 5 (Or.inr rfl)⟩

/-! ## C8 — add/get round trip preserves content and metadata -/

/-- C8: for every store state, content, metadata, generated id, and
timestamp, `add(content, metadata)` followed by `get` of the returned
memory's id yields a memory whose `content` and `metadata` equal the values
passed to `add`. -/
theorem add_get_round_trip (st : StoreState) (content : String)
    (metadata : Option Metadata) (genId : String) (now : Int) :
    ∃ m, MemoryStore.get
        (MemoryStore.add st content metadata ⟨none, none⟩ genId now).2
        (MemoryStore.add st content metadata ⟨none, none⟩ genId now).1.id =
          some m ∧
      m.content = content ∧ m.metadata = metadata := by
  have h := get_after_backend_add st.db
    ⟨genId, content,
      (match (none : Option Bool).getD st.embeddingProvider.isSome,
          st.embeddingProvider with
        | true, some p => some (p.embed content)
        | _, _ => none),
      metadata, now, none⟩
  exact ⟨_, h, rfl, rfl⟩

/-! ## C6, C10 — cosine similarity bounds and guards -/

/-- Cauchy–Schwarz over zipped lists: the squared dot product is at most the
product of the squared norms. -/
theorem zip_cauchy_schwarz :
    ∀ a b : List ℝ,
      (((a.zip b).map (fun p => p.1 * p.2)).sum) ^ 2 ≤
        (((a.zip b).map (fun p => p.1 * p.1)).sum) *
          (((a.zip b).map (fun p => p.2 * p.2)).sum)
  | [], _ => by simp
  | _ :: _, [] => by simp
  | x :: as, y :: bs => by
    have ih := zip_cauchy_schwarz as bs
    have hA : 0 ≤ ((as.zip bs).map (fun p => p.1 * p.1)).sum := by
      apply List.sum_nonneg
      intro q hq
      rcases List.mem_map.mp hq with ⟨p, _, rfl⟩
      exact mul_self_nonneg _
    have hB : 0 ≤ ((as.zip bs).map (fun p => p.2 * p.2)).sum := by
      apply List.sum_nonneg
      intro q hq
      rcases List.mem_map.mp hq with ⟨p, _, rfl⟩
      exact mul_self_nonneg _
    simp only [List.zip_cons_cons, List.map_cons, List.sum_cons]
    set d := ((as.zip bs).map (fun p => p.1 * p.2)).sum with hd
    set A := ((as.zip bs).map (fun p => p.1 * p.1)).sum with hAd
    set B := ((as.zip bs).map (fun p => p.2 * p.2)).sum with hBd
    rcases eq_or_lt_of_le hB with hB0 | hB0
    · have hd2 : d ^ 2 = 0 := le_antisymm (by nlinarith [ih]) (sq_nonneg d)
      have hd0 : d = 0 := sq_eq_zero_iff.mp hd2
      rw [hd0, ← hB0]
      nlinarith [mul_nonneg hA (sq_nonneg y)]
    · nlinarith [ih, sq_nonneg (x * B - y * d),
        mul_nonneg (sub_nonneg.mpr ih) (sq_nonneg y),
        mul_nonneg (sub_nonneg.mpr ih) (le_of_lt hB0), hB0]

/-- C6: `cosineSimilarity` returns exactly 0 (not an error) on dimension
mismatch, and for equal-length vectors its value lies in `[-1, 1]`. -/
theorem cosineSimilarity_bounds (a b : List ℝ) :
    (a.length ≠ b.length → SQLiteBackend.cosineSimilarity a b = 0) ∧
    (a.length = b.length →
      -1 ≤ SQLiteBackend.cosineSimilarity a b ∧
        SQLiteBackend.cosineSimilarity a b ≤ 1) := by
  constructor
  · intro h
    unfold SQLiteBackend.cosineSimilarity
    rw [if_neg h]
  · intro h
    unfold SQLiteBackend.cosineSimilarity
    rw [if_pos h]
    simp only
    by_cases hmag :
        Real.sqrt ((a.map (fun x => x * x)).sum) *
          Real.sqrt ((b.map (fun x => x * x)).sum) = 0
    · rw [if_pos hmag]
      norm_num
    · rw [if_neg hmag]
      have hAzip : (a.map (fun x => x * x)).sum =
          ((a.zip b).map (fun p => p.1 * p.1)).sum := by
        conv_lhs => rw [← List.map_fst_zip a b (le_of_eq h)]
        rw [List.map_map]
        rfl
      have hBzip : (b.map (fun x => x * x)).sum =
          ((a.zip b).map (fun p => p.2 * p.2)).sum := by
        conv_lhs => rw [← List.map_snd_zip a b (ge_of_eq h)]
        rw [List.map_map]
        rfl
      have hA : 0 ≤ (a.map (fun x => x * x)).sum := by
        apply List.sum_nonneg
        intro q hq
        rcases List.mem_map.mp hq with ⟨p, _, rfl⟩
        exact mul_self_nonneg _
      have hB : 0 ≤ (b.map (fun x => x * x)).sum := by
        apply List.sum_nonneg
        intro q hq
        rcases List.mem_map.mp hq with ⟨p, _, rfl⟩
        exact mul_self_nonneg _
      have hcs : (((a.zip b).map (fun p => p.1 * p.2)).sum) ^ 2 ≤
          ((a.map (fun x => x * x)).sum) * ((b.map (fun x => x * x)).sum) := by
        rw [hAzip, hBzip]
        exact zip_cauchy_schwarz a b
      have habs : |((a.zip b).map (fun p => p.1 * p.2)).sum| ≤
          Real.sqrt ((a.map (fun x => x * x)).sum) *
            Real.sqrt ((b.map (fun x => x * x)).sum) := by
        have h1 : |((a.zip b).map (fun p => p.1 * p.2)).sum| =
            Real.sqrt ((((a.zip b).map (fun p => p.1 * p.2)).sum) ^ 2) :=
          (Real.sqrt_sq_eq_abs _).symm
        rw [h1, ← Real.sqrt_mul hA]
        exact Real.sqrt_le_sqrt hcs
      have hmagpos : 0 <
          Real.sqrt ((a.map (fun x => x * x)).sum) *
            Real.sqrt ((b.map (fun x => x * x)).sum) :=
        lt_of_le_of_ne (mul_nonneg (Real.sqrt_nonneg _) (Real.sqrt_nonneg _))
          (Ne.symm hmag)
      have hdiv : |((a.zip b).map (fun p => p.1 * p.2)).sum /
          (Real.sqrt ((a.map (fun x => x * x)).sum) *
            Real.sqrt ((b.map (fun x => x * x)).sum))| ≤ 1 := by
        rw [abs_div, abs_of_pos hmagpos]
        exact (div_le_one hmagpos).mpr habs
      exact abs_le.mp hdiv

/-- Witness for C6: mismatch [1,2]/[3] gives 0; equal-length [1,0]/[0,1]
lies in [-1, 1]. -/
theorem cosineSimilarity_bounds_witness :
    (([1, 2] : List ℝ).length ≠ ([3] : List ℝ).length ∧
      SQLiteBackend.cosineSimilarity [1, 2] [3] = 0) ∧
    (([1, 0] : List ℝ).length = ([0, 1] : List ℝ).length ∧
      -1 ≤ SQLiteBackend.cosineSimilarity [1, 0] [0, 1] ∧
        SQLiteBackend.cosineSimilarity [1, 0] [0, 1] ≤ 1) :=
  ⟨⟨by decide, (cosineSimilarity_bounds [1, 2] [3]).1 (by decide)⟩,
    ⟨rfl, (cosineSimilarity_bounds [1, 0] [0, 1]).2 rfl⟩⟩

/-- C10: for equal-length vectors, when either vector has zero magnitude
(all components zero) the guarded division makes `cosineSimilarity` return
0 instead of dividing by zero. -/
theorem cosineSimilarity_zero_magnitude (a b : List ℝ)
    (hlen : a.length = b.length)
    (hz : (∀ x ∈ a, x = 0) ∨ (∀ x ∈ b, x = 0)) :
    SQLiteBackend.cosineSimilarity a b = 0 := by
  unfold SQLiteBackend.cosineSimilarity
  rw [if_pos hlen]
  simp only
  have hmag : Real.sqrt ((a.map (fun x => x * x)).sum) *
      Real.sqrt ((b.map (fun x => x * x)).sum) = 0 := by
    rcases hz with hz | hz
    · have hA : (a.map (fun x => x * x)).sum = 0 := by
        apply List.sum_eq_zero
        intro q hq
        rcases List.mem_map.mp hq with ⟨p, hp, rfl⟩
        rw [hz p hp, mul_zero]
      rw [hA, Real.sqrt_zero, zero_mul]
    · have hB : (b.map (fun x => x * x)).sum = 0 := by
        apply List.sum_eq_zero
        intro q hq
        rcases List.mem_map.mp hq with ⟨p, hp, rfl⟩
        rw [hz p hp, mul_zero]
      rw [hB, Real.sqrt_zero, mul_zero]
  rw [if_pos hmag]

/-- Witness for C10: the zero vector against [1, 2]. -/
theorem cosineSimilarity_zero_magnitude_witness :
    (([0, 0] : List ℝ).length = ([1, 2] : List ℝ).length ∧
      ((∀ x ∈ ([0, 0] : List ℝ), x = 0) ∨
        (∀ x ∈ ([1, 2] : List ℝ), x = 0))) ∧
    SQLiteBackend.cosineSimilarity [0, 0] [1, 2] = 0 :=
  ⟨⟨rfl, Or.inl (by simp)⟩,
    cosineSimilarity_zero_magnitude [0, 0] [1, 2] rfl (Or.inl (by simp))⟩

end Engram

